import Mathlib

/-!
Shallow embedding of `Eigen/src/Array/VectorwiseOp.h`: the `PartialReduxExpr`
expression node, the member reduction functors, and the `VectorwiseOp` axis
adaptor (partial reductions, broadcast assignment, reverse, replicate),
together with proofs of the specification's claims about them.
-/

namespace Eigen

/-- The redux direction template argument of the header: `Vertical` collapses
rows (the colwise adaptor, sub-vectors are columns), `Horizontal` collapses
columns (the rowwise adaptor, sub-vectors are rows). -/
inductive Direction where
  | Vertical : Direction
  | Horizontal : Direction
deriving DecidableEq

open Direction

/-- A dense matrix expression as the header assumes of `MatrixType`: run-time
extents together with total coordinate-based coefficient access. -/
structure Mat (α : Type) where
  rows : Nat
  cols : Nat
  entry : Nat → Nat → α

/-- `m_matrix.col(j)`: the j-th column sub-vector, modelled as the list of its
coefficients from top to bottom. -/
def Mat.col {α : Type} (M : Mat α) (j : Nat) : List α :=
  (List.range M.rows).map (fun i => M.entry i j)

/-- `m_matrix.row(i)`: the i-th row sub-vector, modelled as the list of its
coefficients from left to right. -/
def Mat.row {α : Type} (M : Mat α) (i : Nat) : List α :=
  (List.range M.cols).map (fun j => M.entry i j)

/-- `PartialReduxExpr::rows()` (line 87): `Direction==Vertical ? 1 : m_matrix.rows()`. -/
def predux_rows {α : Type} (d : Direction) (M : Mat α) : Nat :=
  if d = Vertical then 1 else M.rows

/-- `PartialReduxExpr::cols()` (line 88): `Direction==Horizontal ? 1 : m_matrix.cols()`. -/
def predux_cols {α : Type} (d : Direction) (M : Mat α) : Nat :=
  if d = Horizontal then 1 else M.cols

/-- `PartialReduxExpr::coeff(int i, int j)` (lines 90-96): apply the member
functor to `m_matrix.col(j)` when Vertical, else to `m_matrix.row(i)`. -/
def predux_coeff2 {α β : Type} (f : List α → β) (d : Direction) (M : Mat α)
    (i j : Nat) : β :=
  if d = Vertical then f (M.col j) else f (M.row i)

/-- `PartialReduxExpr::coeff(int index)` (lines 98-104): apply the member
functor to `m_matrix.col(index)` when Vertical, else to `m_matrix.row(index)`. -/
def predux_coeff {α β : Type} (f : List α → β) (d : Direction) (M : Mat α)
    (k : Nat) : β :=
  if d = Vertical then f (M.col k) else f (M.row k)

/-- Modelled from the spec: `ei_member_sum` (line 127) delegates to
`MatrixBase::sum()`, which is outside `src/`; per spec section 4.1 it is the
whole-vector sum reduction. -/
def vec_sum {α : Type} [AddCommMonoid α] (l : List α) : α :=
  l.sum

/-- Modelled from the spec: `ei_member_maxCoeff` (line 130) delegates to
`MatrixBase::maxCoeff()`, outside `src/`; per spec section 4.1 it is the
largest coefficient of the sub-vector (a fold of `max` over the coefficients,
seeded with the first one; empty sub-vectors do not occur). -/
def vec_maxCoeff (l : List Int) : Int :=
  match l with
  | [] => 0
  | a :: t => t.foldl max a

/-- Modelled from the spec: `ei_member_count<int>` (line 133, used at line 359)
delegates to `MatrixBase::count()`, outside `src/`; per the spec it yields the
number of true coefficients of the sub-vector, with integral (`int`) result
type regardless of the input scalar type. -/
def vec_count (l : List Bool) : Int :=
  (l.countP (fun b => b) : Nat)

/-- Modelled from the spec: `ei_member_squaredNorm` (line 122) delegates to
`MatrixBase::squaredNorm()`, outside `src/`; for real scalars it is the sum of
squares of the coefficients. -/
def vec_squaredNorm (l : List ℝ) : ℝ :=
  (l.map (fun x => x * x)).sum

/-- Modelled from the spec: `ei_member_norm` (line 123) delegates to
`MatrixBase::norm()`, outside `src/`; it is the Euclidean norm, the square
root of the squared norm. -/
noncomputable def vec_norm (l : List ℝ) : ℝ :=
  Real.sqrt (vec_squaredNorm l)

/-- `VectorwiseOp::subVectors()` (lines 213-214): the number of sub-vectors,
`Direction==Vertical ? m_matrix.cols() : m_matrix.rows()`. -/
def subVectors {α : Type} (d : Direction) (M : Mat α) : Nat :=
  if d = Vertical then M.cols else M.rows

/-- The extent of one sub-vector: a column has `rows()` coefficients when
Vertical, a row has `cols()` coefficients when Horizontal. -/
def subVectorSize {α : Type} (d : Direction) (M : Mat α) : Nat :=
  if d = Vertical then M.rows else M.cols

/-- `VectorwiseOp::subVector(i)` (lines 203-209): the i-th sub-vector, a
column view when Vertical and a row view when Horizontal. -/
def subVectorView {α : Type} (d : Direction) (M : Mat α) (i : Nat) : List α :=
  if d = Vertical then M.col i else M.row i

/-- The coordinate of a coefficient along the iteration axis of the adaptor:
the column index when Vertical (sub-vectors are columns), the row index when
Horizontal. -/
def axisIdx (d : Direction) (r c : Nat) : Nat :=
  match d with
  | Vertical => c
  | Horizontal => r

/-- The coordinate of a coefficient inside its sub-vector: the row index when
Vertical, the column index when Horizontal. -/
def crossIdx (d : Direction) (r c : Nat) : Nat :=
  match d with
  | Vertical => r
  | Horizontal => c

/-- One iteration of the assignment loops (lines 410-411, 420-421, 430-431):
`subVector(j) op= other` writes, through the zero-copy sub-vector view, each
coefficient of sub-vector `j` combined with the matching coefficient of the
operand; all other coefficients are untouched. -/
def subVectorUpdate {α : Type} [Inhabited α] (op : α → α → α) (d : Direction)
    (v : List α) (M : Mat α) (j : Nat) : Mat α :=
  ⟨M.rows, M.cols, fun r c =>
    if axisIdx d r c = j then op (M.entry r c) (v.getD (crossIdx d r c) default)
    else M.entry r c⟩

/-- The index sequence of the assignment loops
`for(int j=0; j<subVectors(); ++j)` (lines 410, 420, 430): ascending from 0. -/
def vop_assignOrder {α : Type} (d : Direction) (M : Mat α) : List Nat :=
  List.range (subVectors d M)

/-- The common shape of the three assignment loops: fold the per-sub-vector
update over the loop index sequence, returning the mutated underlying
expression. -/
def vop_assignLoop {α : Type} [Inhabited α] (op : α → α → α) (d : Direction)
    (M : Mat α) (v : List α) : Mat α :=
  (vop_assignOrder d M).foldl (subVectorUpdate op d v) M

/-- `VectorwiseOp::operator=` (lines 405-413): copies the operand vector to
each sub-vector. -/
def vop_set {α : Type} [Inhabited α] (d : Direction) (M : Mat α)
    (v : List α) : Mat α :=
  vop_assignLoop (fun _ b => b) d M v

/-- `VectorwiseOp::operator+=` (lines 416-423): adds the operand vector to
each sub-vector. -/
def vop_addAssign {α : Type} [Add α] [Inhabited α] (d : Direction) (M : Mat α)
    (v : List α) : Mat α :=
  vop_assignLoop (fun a b => a + b) d M v

/-- `VectorwiseOp::operator-=` (lines 426-433): subtracts the operand vector
from each sub-vector. -/
def vop_subAssign {α : Type} [Sub α] [Inhabited α] (d : Direction) (M : Mat α)
    (v : List α) : Mat α :=
  vop_assignLoop (fun a b => a - b) d M v

/-- Modelled from the spec: the run-time shape precondition of broadcast
assignment. The operand-size check itself lives in the sub-vector assignment
(`Assign.h`, outside `src/`); per spec section 7 a size incompatible with the
sub-vector extent is a precondition failure raised before the first
sub-vector is mutated, never a partial application. -/
def vop_setChecked {α : Type} [Inhabited α] (d : Direction) (M : Mat α)
    (v : List α) : Option (Mat α) :=
  if v.length = subVectorSize d M then some (vop_set d M v) else none

/-- Modelled from the spec: `VectorwiseOp::reverse()` (lines 380-381) returns
`Reverse<ExpressionType, Direction>`, whose class (`Reverse.h`) is outside
`src/`; per spec section 4.3 each sub-vector is reversed along the adaptor's
axis: colwise, row `i` reads row `rows()-1-i`; rowwise, column `j` reads
column `cols()-1-j`. -/
def vop_reverse {α : Type} (d : Direction) (M : Mat α) : Mat α :=
  ⟨M.rows, M.cols, fun i j =>
    match d with
    | Vertical => M.entry (M.rows - 1 - i) j
    | Horizontal => M.entry i (M.cols - 1 - j)⟩

/-- Modelled from the spec: `VectorwiseOp::replicate(factor)` (lines 395-400)
builds `Replicate(expr, Vertical ? factor : 1, Horizontal ? factor : 1)`,
whose class (`Replicate.h`) is outside `src/`; per spec section 4.3 it tiles
the wrapped expression `factor` times along the adaptor's axis, coefficient
access wrapping around modulo the original extent. -/
def vop_replicate {α : Type} (d : Direction) (n : Nat) (M : Mat α) : Mat α :=
  match d with
  | Vertical => ⟨n * M.rows, M.cols, fun i j => M.entry (i % M.rows) j⟩
  | Horizontal => ⟨M.rows, n * M.cols, fun i j => M.entry i (j % M.cols)⟩

/-- The concrete matrix of the spec's scenario: `M = [[1,2,3],[4,5,6]]`. -/
def M23 : Mat Int :=
  ⟨2, 3, fun i j => (([[1, 2, 3], [4, 5, 6]] : List (List Int)).getD i []).getD j 0⟩

/-! ### Helper lemmas -/

theorem sum_map_range {α : Type} [AddCommMonoid α] (f : Nat → α) (n : Nat) :
    ((List.range n).map f).sum = ∑ i in Finset.range n, f i := by
  induction n with
  | zero => simp
  | succ n ih =>
    rw [List.range_succ, List.map_append, List.sum_append, Finset.sum_range_succ, ih]
    simp

theorem predux_coeff_vertical {α β : Type} (f : List α → β) (M : Mat α) (k : Nat) :
    predux_coeff f Direction.Vertical M k = f (M.col k) := rfl

theorem predux_coeff_horizontal {α β : Type} (f : List α → β) (M : Mat α) (k : Nat) :
    predux_coeff f Direction.Horizontal M k = f (M.row k) := rfl

theorem countP_map_range {α : Type} (p : α → Bool) (f : Nat → α) (n : Nat) :
    ((List.range n).map f).countP p =
      ((Finset.range n).filter (fun i => p (f i) = true)).card := by
  rw [Finset.card_filter]
  induction n with
  | zero => simp
  | succ n ih =>
    rw [List.range_succ, List.map_append, List.countP_append, Finset.sum_range_succ, ih]
    simp [List.countP_cons]

theorem foldl_update_rows {α : Type} [Inhabited α] (op : α → α → α)
    (d : Direction) (v : List α) (l : List Nat) (M : Mat α) :
    (l.foldl (subVectorUpdate op d v) M).rows = M.rows := by
  induction l generalizing M with
  | nil => rfl
  | cons j t ih => rw [List.foldl_cons, ih]; rfl

theorem foldl_update_cols {α : Type} [Inhabited α] (op : α → α → α)
    (d : Direction) (v : List α) (l : List Nat) (M : Mat α) :
    (l.foldl (subVectorUpdate op d v) M).cols = M.cols := by
  induction l generalizing M with
  | nil => rfl
  | cons j t ih => rw [List.foldl_cons, ih]; rfl

theorem range_foldl_update_entry {α : Type} [Inhabited α] (op : α → α → α)
    (d : Direction) (v : List α) (n : Nat) (M : Mat α) (r c : Nat) :
    (((List.range n).foldl (subVectorUpdate op d v) M)).entry r c =
      if axisIdx d r c < n then op (M.entry r c) (v.getD (crossIdx d r c) default)
      else M.entry r c := by
  induction n with
  | zero => simp
  | succ n ih =>
    rw [List.range_succ, List.foldl_append, List.foldl_cons, List.foldl_nil]
    by_cases h : axisIdx d r c = n
    · simp only [subVectorUpdate, if_pos h, ih]
      rw [if_neg (by omega), if_pos (by omega)]
    · simp only [subVectorUpdate, if_neg h, ih]
      by_cases h2 : axisIdx d r c < n
      · rw [if_pos h2, if_pos (by omega)]
      · rw [if_neg h2, if_neg (by omega)]

theorem vop_assignLoop_entry {α : Type} [Inhabited α] (op : α → α → α)
    (d : Direction) (M : Mat α) (v : List α) (r c : Nat) :
    (vop_assignLoop op d M v).entry r c =
      if axisIdx d r c < subVectors d M
      then op (M.entry r c) (v.getD (crossIdx d r c) default)
      else M.entry r c :=
  range_foldl_update_entry op d v (subVectors d M) M r c

theorem vop_assignLoop_rows {α : Type} [Inhabited α] (op : α → α → α)
    (d : Direction) (M : Mat α) (v : List α) :
    (vop_assignLoop op d M v).rows = M.rows :=
  foldl_update_rows op d v (vop_assignOrder d M) M

theorem vop_assignLoop_cols {α : Type} [Inhabited α] (op : α → α → α)
    (d : Direction) (M : Mat α) (v : List α) :
    (vop_assignLoop op d M v).cols = M.cols :=
  foldl_update_cols op d v (vop_assignOrder d M) M

theorem map_range_eq_zipWith {α : Type} [Inhabited α] (g : α → α → α)
    (f : Nat → α) (v : List α) (n : Nat) (hv : v.length = n) :
    (List.range n).map (fun i => g (f i) (v.getD i default)) =
      List.zipWith g ((List.range n).map f) v := by
  apply List.ext_getElem
  · simp [hv]
  · intro i h1 h2
    have hi : i < v.length := by simp [hv] at h2 ⊢; omega
    simp [List.getD_eq_getElem v default hi, List.getElem?_eq_getElem hi]

/-! ### Claims -/

/-- Claim C1: for every matrix `M` and either axis, the sum partial reduction
has collapsed-axis extent 1 and unchanged extent on the other axis, and its
coefficient `k` is the sum of column (Vertical) or row (Horizontal) `k` of
`M`. -/
theorem sum_redux_shape_and_coeff {α : Type} [AddCommMonoid α] (M : Mat α) :
    (predux_rows Vertical M = 1 ∧ predux_cols Vertical M = M.cols ∧
     predux_cols Horizontal M = 1 ∧ predux_rows Horizontal M = M.rows) ∧
    (∀ k, predux_coeff vec_sum Vertical M k = ∑ i in Finset.range M.rows, M.entry i k) ∧
    (∀ k, predux_coeff vec_sum Horizontal M k = ∑ j in Finset.range M.cols, M.entry k j) := by
  refine ⟨⟨rfl, rfl, rfl, rfl⟩, fun k => ?_, fun k => ?_⟩
  · simp [predux_coeff, vec_sum, Mat.col, sum_map_range]
  · simp [predux_coeff, vec_sum, Mat.row, sum_map_range]

/-- Claim C2: on the concrete matrix `M23 = [[1,2,3],[4,5,6]]`, the
column-axis sum reduction is `[5,7,9]` with shape 1x3, the row-axis sum
reduction is `[6,15]` with shape 2x1, and the column-axis max reduction is
`[4,5,6]`. -/
theorem concrete_redux_M23 :
    predux_rows Vertical M23 = 1 ∧ predux_cols Vertical M23 = 3 ∧
    predux_coeff vec_sum Vertical M23 0 = 5 ∧
    predux_coeff vec_sum Vertical M23 1 = 7 ∧
    predux_coeff vec_sum Vertical M23 2 = 9 ∧
    predux_rows Horizontal M23 = 2 ∧ predux_cols Horizontal M23 = 1 ∧
    predux_coeff vec_sum Horizontal M23 0 = 6 ∧
    predux_coeff vec_sum Horizontal M23 1 = 15 ∧
    predux_coeff vec_maxCoeff Vertical M23 0 = 4 ∧
    predux_coeff vec_maxCoeff Vertical M23 1 = 5 ∧
    predux_coeff vec_maxCoeff Vertical M23 2 = 6 := by
  decide

/-- Claim C10: the flat-index accessor of `PartialReduxExpr` agrees with the
two-index accessor: when collapsing vertically `coeff(k) = coeff(0,k)`, and
when collapsing horizontally `coeff(k) = coeff(k,0)`, for every member
functor. -/
theorem coeff_flat_eq_coeff2 {α β : Type} (f : List α → β) (M : Mat α) (k : Nat) :
    predux_coeff f Vertical M k = predux_coeff2 f Vertical M 0 k ∧
    predux_coeff f Horizontal M k = predux_coeff2 f Horizontal M k 0 := by
  exact ⟨rfl, rfl⟩

/-- Claim C3: for every boolean matrix `M` and either axis, the count partial
reduction's coefficient `k` is the number of true coefficients of sub-vector
`k`, and the result is always an integer value (the result type of the count
functor is `int`, here `ℤ`, the value a cast natural number). -/
theorem count_redux_coeff (M : Mat Bool) :
    (∀ k, predux_coeff vec_count Vertical M k =
      (((Finset.range M.rows).filter (fun i => M.entry i k = true)).card : Int)) ∧
    (∀ k, predux_coeff vec_count Horizontal M k =
      (((Finset.range M.cols).filter (fun j => M.entry k j = true)).card : Int)) ∧
    (∀ d k, ∃ n : Nat, predux_coeff vec_count d M k = (n : Int)) := by
  refine ⟨fun k => ?_, fun k => ?_, fun d k => ?_⟩
  · rw [predux_coeff_vertical]
    simp only [vec_count, Mat.col]
    rw [countP_map_range]
  · rw [predux_coeff_horizontal]
    simp only [vec_count, Mat.row]
    rw [countP_map_range]
  · cases d with
    | Vertical => exact ⟨(M.col k).countP (fun b => b), rfl⟩
    | Horizontal => exact ⟨(M.row k).countP (fun b => b), rfl⟩

/-- Claim C4: for an integer matrix `M`, either axis, and an operand vector
`v` sized to the sub-vector extent, after `adaptor += v` every sub-vector
equals its original value plus `v` elementwise; a subsequent `adaptor -= v`
restores `M` exactly (every coefficient and both extents). -/
theorem broadcast_addAssign_subAssign (d : Direction) (M : Mat ℤ) (v : List ℤ)
    (hv : v.length = subVectorSize d M) :
    (∀ k, k < subVectors d M →
      subVectorView d (vop_addAssign d M v) k =
        List.zipWith (fun a b => a + b) (subVectorView d M k) v) ∧
    (∀ r c, (vop_subAssign d (vop_addAssign d M v) v).entry r c = M.entry r c) ∧
    (vop_subAssign d (vop_addAssign d M v) v).rows = M.rows ∧
    (vop_subAssign d (vop_addAssign d M v) v).cols = M.cols := by
  have hrows : (vop_addAssign d M v).rows = M.rows := vop_assignLoop_rows _ _ _ _
  have hcols : (vop_addAssign d M v).cols = M.cols := vop_assignLoop_cols _ _ _ _
  have hsub : subVectors d (vop_addAssign d M v) = subVectors d M := by
    cases d <;> simp [subVectors, hrows, hcols]
  have hentry : ∀ r c, (vop_addAssign d M v).entry r c =
      if axisIdx d r c < subVectors d M
      then M.entry r c + v.getD (crossIdx d r c) default
      else M.entry r c := by
    intro r c
    simp only [vop_addAssign]
    rw [vop_assignLoop_entry]
  refine ⟨fun k hk => ?_, fun r c => ?_, ?_, ?_⟩
  · cases d with
    | Vertical =>
      have hv' : v.length = M.rows := by simpa [subVectorSize] using hv
      have hk' : k < M.cols := by simpa [subVectors] using hk
      have hmap : ∀ i, (vop_addAssign Vertical M v).entry i k =
          M.entry i k + v.getD i default := by
        intro i
        rw [hentry i k]
        simp only [axisIdx, crossIdx]
        rw [if_pos (by simpa [subVectors] using hk')]
      calc subVectorView Vertical (vop_addAssign Vertical M v) k
          = (List.range M.rows).map
              (fun i => (vop_addAssign Vertical M v).entry i k) := by
            simp [subVectorView, Mat.col, hrows]
        _ = (List.range M.rows).map (fun i => M.entry i k + v.getD i default) :=
            List.map_congr_left (fun i _ => hmap i)
        _ = List.zipWith (fun a b => a + b)
              ((List.range M.rows).map (fun i => M.entry i k)) v :=
            map_range_eq_zipWith _ _ v M.rows hv'
        _ = List.zipWith (fun a b => a + b) (subVectorView Vertical M k) v := by
            simp [subVectorView, Mat.col]
    | Horizontal =>
      have hv' : v.length = M.cols := by simpa [subVectorSize] using hv
      have hk' : k < M.rows := by simpa [subVectors] using hk
      have hmap : ∀ j, (vop_addAssign Horizontal M v).entry k j =
          M.entry k j + v.getD j default := by
        intro j
        rw [hentry k j]
        simp only [axisIdx, crossIdx]
        rw [if_pos (by simpa [subVectors] using hk')]
      calc subVectorView Horizontal (vop_addAssign Horizontal M v) k
          = (List.range M.cols).map
              (fun j => (vop_addAssign Horizontal M v).entry k j) := by
            simp [subVectorView, Mat.row, hcols]
        _ = (List.range M.cols).map (fun j => M.entry k j + v.getD j default) :=
            List.map_congr_left (fun j _ => hmap j)
        _ = List.zipWith (fun a b => a + b)
              ((List.range M.cols).map (fun j => M.entry k j)) v :=
            map_range_eq_zipWith _ _ v M.cols hv'
        _ = List.zipWith (fun a b => a + b) (subVectorView Horizontal M k) v := by
            simp [subVectorView, Mat.row]
  · simp only [vop_subAssign]
    rw [vop_assignLoop_entry, hsub, hentry r c]
    by_cases h : axisIdx d r c < subVectors d M
    · rw [if_pos h, if_pos h, add_sub_cancel_right]
    · rw [if_neg h, if_neg h]
  · exact (vop_assignLoop_rows _ _ _ _).trans hrows
  · exact (vop_assignLoop_cols _ _ _ _).trans hcols

/-- Witness for claim C4 at `M23`, the Vertical axis and `v = [10, 20]`. -/
theorem broadcast_addAssign_subAssign_witness :
    ([10, 20] : List ℤ).length = subVectorSize Direction.Vertical M23 ∧
    subVectorView Direction.Vertical
        (vop_addAssign Direction.Vertical M23 [10, 20]) 0 =
      List.zipWith (fun a b => a + b)
        (subVectorView Direction.Vertical M23 0) [10, 20] ∧
    (vop_subAssign Direction.Vertical
        (vop_addAssign Direction.Vertical M23 [10, 20]) [10, 20]).entry 1 2 =
      M23.entry 1 2 := by
  have h := broadcast_addAssign_subAssign Direction.Vertical M23 [10, 20] (by decide)
  exact ⟨by decide, h.1 0 (by decide), h.2.1 1 2⟩

/-- Claim C5: a broadcast-assignment operand whose size is incompatible with
the sub-vector extent is rejected by the precondition check before any
mutation (the result is `none`, no partially assigned matrix exists); a
size-compatible operand yields the fully applied assignment: every
coefficient of every sub-vector holds the operand value, all other
coefficients are untouched, and the extents are unchanged. -/
theorem checked_assign_shape_error {α : Type} [Inhabited α] (d : Direction)
    (M : Mat α) (v : List α) :
    (v.length ≠ subVectorSize d M → vop_setChecked d M v = none) ∧
    (v.length = subVectorSize d M →
      ∃ M', vop_setChecked d M v = some M' ∧
        M'.rows = M.rows ∧ M'.cols = M.cols ∧
        (∀ r c, axisIdx d r c < subVectors d M →
          M'.entry r c = v.getD (crossIdx d r c) default) ∧
        (∀ r c, ¬ axisIdx d r c < subVectors d M →
          M'.entry r c = M.entry r c)) := by
  constructor
  · intro h
    simp [vop_setChecked, h]
  · intro h
    refine ⟨vop_set d M v, by simp [vop_setChecked, h],
      vop_assignLoop_rows _ _ _ _, vop_assignLoop_cols _ _ _ _,
      fun r c hrc => ?_, fun r c hrc => ?_⟩
    · simp only [vop_set]
      rw [vop_assignLoop_entry, if_pos hrc]
    · simp only [vop_set]
      rw [vop_assignLoop_entry, if_neg hrc]

/-- Witness for claim C5: on `M23` (sub-vector extent 2 along Vertical), the
one-element operand `[9]` is rejected with no mutation. -/
theorem checked_assign_shape_error_witness :
    ([9] : List ℤ).length ≠ subVectorSize Direction.Vertical M23 ∧
    vop_setChecked Direction.Vertical M23 ([9] : List ℤ) = none := by
  have h := checked_assign_shape_error Direction.Vertical M23 ([9] : List ℤ)
  exact ⟨by decide, h.1 (by decide)⟩

/-- Claim C6: for every real matrix `M`, axis, and index `k`, the Euclidean
norm partial reduction is the square root of the squared-norm partial
reduction at the same index (exactly, in the real-number model of the scalar
type); its square recovers the squared norm and it is nonnegative. -/
theorem norm_sqrt_squaredNorm (d : Direction) (M : Mat ℝ) (k : Nat) :
    predux_coeff vec_norm d M k =
      Real.sqrt (predux_coeff vec_squaredNorm d M k) ∧
    (predux_coeff vec_norm d M k) ^ 2 = predux_coeff vec_squaredNorm d M k ∧
    0 ≤ predux_coeff vec_norm d M k := by
  have hnn : ∀ l : List ℝ, 0 ≤ vec_squaredNorm l := by
    intro l
    apply List.sum_nonneg
    intro x hx
    simp only [List.mem_map] at hx
    obtain ⟨y, _, rfl⟩ := hx
    exact mul_self_nonneg y
  have h1 : predux_coeff vec_norm d M k =
      Real.sqrt (predux_coeff vec_squaredNorm d M k) := by
    cases d <;> simp [predux_coeff, vec_norm]
  have ha : 0 ≤ predux_coeff vec_squaredNorm d M k := by
    cases d <;> simp [predux_coeff] <;> apply hnn
  refine ⟨h1, ?_, ?_⟩
  · rw [h1, Real.sq_sqrt ha]
  · rw [h1]
    exact Real.sqrt_nonneg _

/-- Claim C7: reversing twice along the same axis is the identity: the
double reverse has the extents of `M` and agrees with `M` on every valid
coefficient (and a single reverse also keeps the extents). -/
theorem reverse_reverse_id {α : Type} (d : Direction) (M : Mat α) :
    (vop_reverse d M).rows = M.rows ∧ (vop_reverse d M).cols = M.cols ∧
    (vop_reverse d (vop_reverse d M)).rows = M.rows ∧
    (vop_reverse d (vop_reverse d M)).cols = M.cols ∧
    (∀ i j, i < M.rows → j < M.cols →
      (vop_reverse d (vop_reverse d M)).entry i j = M.entry i j) := by
  cases d with
  | Vertical =>
    refine ⟨rfl, rfl, rfl, rfl, fun i j hi hj => ?_⟩
    show M.entry (M.rows - 1 - (M.rows - 1 - i)) j = M.entry i j
    congr 1
    omega
  | Horizontal =>
    refine ⟨rfl, rfl, rfl, rfl, fun i j hi hj => ?_⟩
    show M.entry i (M.cols - 1 - (M.cols - 1 - j)) = M.entry i j
    congr 1
    omega

/-- Witness for claim C7 at `M23` and coefficient (0,1). -/
theorem reverse_reverse_id_witness :
    0 < M23.rows ∧ 1 < M23.cols ∧
    (vop_reverse Direction.Vertical
        (vop_reverse Direction.Vertical M23)).entry 0 1 = M23.entry 0 1 :=
  ⟨by decide, by decide,
    (reverse_reverse_id Direction.Vertical M23).2.2.2.2 0 1 (by decide) (by decide)⟩

/-- Claim C8: for factor `n ≥ 1`, `replicate(n)` multiplies the extent along
the adaptor's axis (the sub-vector extent, the axis the spec sizes broadcast
operands to) by `n`, keeps the number of sub-vectors unchanged, and tile `k`
equals the original expression for every `k < n`. -/
theorem replicate_shape_tiles {α : Type} (d : Direction) (n : Nat)
    (_hn : 1 ≤ n) (M : Mat α) :
    subVectorSize d (vop_replicate d n M) = n * subVectorSize d M ∧
    subVectors d (vop_replicate d n M) = subVectors d M ∧
    (∀ k, k < n → ∀ i j, i < M.rows → j < M.cols →
      (match d with
       | Direction.Vertical => (vop_replicate d n M).entry (k * M.rows + i) j
       | Direction.Horizontal => (vop_replicate d n M).entry i (k * M.cols + j))
        = M.entry i j) := by
  cases d with
  | Vertical =>
    refine ⟨rfl, rfl, fun k hk i j hi hj => ?_⟩
    show M.entry ((k * M.rows + i) % M.rows) j = M.entry i j
    congr 1
    rw [Nat.add_comm, Nat.add_mul_mod_self_right]
    exact Nat.mod_eq_of_lt hi
  | Horizontal =>
    refine ⟨rfl, rfl, fun k hk i j hi hj => ?_⟩
    show M.entry i ((k * M.cols + j) % M.cols) = M.entry i j
    congr 1
    rw [Nat.add_comm, Nat.add_mul_mod_self_right]
    exact Nat.mod_eq_of_lt hj

/-- Witness for claim C8: replicating `M23` twice along Vertical, tile 1
reproduces coefficient (1,0). -/
theorem replicate_shape_tiles_witness :
    1 ≤ 2 ∧ 1 < 2 ∧ 1 < M23.rows ∧ 0 < M23.cols ∧
    (vop_replicate Direction.Vertical 2 M23).entry (1 * M23.rows + 1) 0 =
      M23.entry 1 0 := by
  refine ⟨by decide, by decide, by decide, by decide, ?_⟩
  exact (replicate_shape_tiles Direction.Vertical 2 (by decide) M23).2.2
    1 (by decide) 1 0 (by decide) (by decide)

/-- Claim C9: the broadcast assignment loops visit the sub-vector indices in
strictly ascending order, exactly the indices below `subVectors()`, where
`subVectors()` is the column count when collapsing vertically and the row
count when collapsing horizontally; each of the three operators returns the
mutated underlying expression (same extents as `M`). -/
theorem assign_order_ascending {α : Type} [Inhabited α] [Add α] [Sub α]
    (d : Direction) (M : Mat α) :
    (subVectors Direction.Vertical M = M.cols ∧
     subVectors Direction.Horizontal M = M.rows) ∧
    List.Sorted (fun a b => a < b) (vop_assignOrder d M) ∧
    (∀ k, k ∈ vop_assignOrder d M ↔ k < subVectors d M) ∧
    (∀ v : List α,
      (vop_set d M v).rows = M.rows ∧ (vop_set d M v).cols = M.cols ∧
      (vop_addAssign d M v).rows = M.rows ∧
      (vop_addAssign d M v).cols = M.cols ∧
      (vop_subAssign d M v).rows = M.rows ∧
      (vop_subAssign d M v).cols = M.cols) := by
  refine ⟨⟨rfl, rfl⟩, ?_, fun k => ?_, fun v => ?_⟩
  · exact List.sorted_lt_range _
  · simp [vop_assignOrder, List.mem_range]
  · exact ⟨vop_assignLoop_rows _ _ _ _, vop_assignLoop_cols _ _ _ _,
      vop_assignLoop_rows _ _ _ _, vop_assignLoop_cols _ _ _ _,
      vop_assignLoop_rows _ _ _ _, vop_assignLoop_cols _ _ _ _⟩

/-- Witness for claim C9 at `M23`: index 0 is among the visited sub-vector
indices along Vertical. -/
theorem assign_order_ascending_witness :
    0 < subVectors Direction.Vertical M23 ∧
    0 ∈ vop_assignOrder Direction.Vertical M23 :=
  ⟨by decide,
    ((assign_order_ascending Direction.Vertical M23).2.2.1 0).mpr (by decide)⟩

end Eigen
